import Mathlib

/-!
Verification of the masterapp EIS numeric pipeline.

This development shallowly embeds the core pipeline of the repository:
the signal validator (pkg/signal/validator.go), the spectral transform
engine (pkg/fft/processor.go) and the impedance calculator
(impedance package, CalculateImpedance / ValidateSignals /
CalculateMagnitudePhase).

Modelling conventions:
- Go float64 values flowing through the numeric pipeline are modelled as
  exact rationals (ℚ); `complex128` as pairs of rationals (`CQ`).  On
  exact rationals the Go `math.IsNaN` / `math.IsInf` scans can never
  fire, so those loops are modelled as always passing; the float-level
  behaviour of the validator (where NaN/Inf matter) is modelled
  separately at the end of the file on an explicit float value type
  `FVal` with IEEE-754 comparison semantics.
- `cmplx.Exp(complex(0, angle))` is a transcendental; the embedding
  abstracts it as an arbitrary parameter `cexp : ℚ → CQ` supplied to the
  transform.  Claims proved for every `cexp` hold in particular for the
  true complex exponential.  Likewise `cmplx.Abs` / `cmplx.Phase` in the
  magnitude/phase derivation are abstracted as parameters
  `fabs fphase : CQ → ℚ`.
- `math.Pi` is the concrete float64 constant, an exact rational
  (`mathPi` below).  The defensive NaN/Inf test on computed twiddle
  angles is modelled as an exact overflow test against the largest
  finite float64 (`maxFloatQ`): on the inputs reachable from Go code the
  exact angle values are more than 10^290 below the overflow threshold,
  so float rounding (a relative perturbation below 2^-50 per operation)
  cannot change the outcome of the test.
- Go `time.Time` timestamps are modelled as integer nanoseconds since
  the epoch, the zero `time.Time` as 0; `Sub(...).Seconds()` as exact
  division by 10^9.
-/

unseal Rat.add Rat.mul Rat.inv Rat.sub

/-- Complex numbers with exact rational components, modelling Go
`complex128` in the finite (non-NaN, non-Inf) fragment. -/
structure CQ where
  re : ℚ
  im : ℚ
deriving DecidableEq, Repr

instance : Zero CQ := ⟨⟨0, 0⟩⟩
instance : One CQ := ⟨⟨1, 0⟩⟩
instance : Add CQ := ⟨fun a b => ⟨a.re + b.re, a.im + b.im⟩⟩
instance : Sub CQ := ⟨fun a b => ⟨a.re - b.re, a.im - b.im⟩⟩
instance : Mul CQ := ⟨fun a b => ⟨a.re * b.re - a.im * b.im, a.re * b.im + a.im * b.re⟩⟩
instance : Inhabited CQ := ⟨0⟩

/-- Squared modulus `re² + im²`; `cmplx.Abs z < c` (for `c > 0`, exact
arithmetic) is equivalent to `absSq z < c²`. -/
def CQ.absSq (a : CQ) : ℚ := a.re * a.re + a.im * a.im

/-- Complex division, modelling Go `complex128` division in exact
arithmetic (Go never divides by an exact zero on the paths modelled
here: the near-zero-current guard intercepts first). -/
instance : Div CQ := ⟨fun a b =>
  ⟨(a.re * b.re + a.im * b.im) / b.absSq, (a.im * b.re - a.re * b.im) / b.absSq⟩⟩

theorem CQ.zero_def : (0 : CQ) = ⟨0, 0⟩ := rfl

theorem CQ.one_def : (1 : CQ) = ⟨1, 0⟩ := rfl

theorem CQ.add_def (a b : CQ) : a + b = ⟨a.re + b.re, a.im + b.im⟩ := rfl

theorem CQ.sub_def (a b : CQ) : a - b = ⟨a.re - b.re, a.im - b.im⟩ := rfl

theorem CQ.mul_def (a b : CQ) :
    a * b = ⟨a.re * b.re - a.im * b.im, a.re * b.im + a.im * b.re⟩ := rfl

@[simp] theorem CQ.mul_zero (a : CQ) : a * (0 : CQ) = 0 := by
  show CQ.mk _ _ = _
  simp [CQ.zero_def]

@[simp] theorem CQ.zero_mul (a : CQ) : (0 : CQ) * a = 0 := by
  show CQ.mk _ _ = _
  simp [CQ.zero_def]

@[simp] theorem CQ.add_zero (a : CQ) : a + (0 : CQ) = a := by
  show CQ.mk _ _ = _
  simp [CQ.zero_def]

@[simp] theorem CQ.zero_add (a : CQ) : (0 : CQ) + a = a := by
  show CQ.mk _ _ = _
  simp [CQ.zero_def]

@[simp] theorem CQ.sub_zero (a : CQ) : a - (0 : CQ) = a := by
  show CQ.mk _ _ = _
  simp [CQ.zero_def]

@[simp] theorem CQ.absSq_zero : CQ.absSq 0 = 0 := by
  simp [CQ.absSq, CQ.zero_def]

/-- Error values of the core, mirroring pkg/config/errors.go.
`validation` carries the `Field` of a `config.ValidationError` together
with its message text; where Go formats an offending index into the
message string via `fmt.Sprintf`, the index is carried explicitly.
`validationWrap` models `NewValidationError(field, err.Error())`, which
stores a rendered cause; the cause is kept structurally. -/
inductive Err where
  | invalidSignalLength
  | invalidSampleRate
  | mismatchedSignalLength
  | mismatchedSampleRate
  | validation (field : String) (msg : String) (idx : Option ℕ)
  | validationWrap (field : String) (cause : Err)
  | invalidAngle (k : ℕ) (j : Option ℕ)
  | processing (op : String) (cause : Err)
deriving DecidableEq, Repr

/-- Time-domain signal (pkg/signal types: `Signal`), timestamp in
nanoseconds since the epoch, zero = the Go zero `time.Time`. -/
structure Signal where
  timestamp : ℤ
  values : List ℚ
  sampleRate : ℚ
deriving DecidableEq, Repr

/-- Frequency-domain signal (`ComplexSignal`). -/
structure ComplexSignal where
  timestamp : ℤ
  values : List CQ
  frequencies : List ℚ
deriving DecidableEq, Repr

/-- Impedance result (`ImpedanceData`). -/
structure ImpedanceData where
  timestamp : ℤ
  impedance : List CQ
  frequencies : List ℚ
  magnitude : List ℚ
  phase : List ℚ
deriving DecidableEq, Repr

/-- `DefaultValidator.ValidateSignal` (pkg/signal/validator.go).  The
final NaN/Inf scan over the values cannot fire on exact rationals and
is modelled at the float level by `FloatV.ValidateSignal` below. -/
def ValidateSignal (s : Signal) : Except Err Unit :=
  if s.values.length = 0 then
    .error (.validation "Values" "signal values cannot be empty" none)
  else if s.sampleRate ≤ 0 then
    .error (.validation "SampleRate" "sample rate must be greater than 0" none)
  else if s.timestamp = 0 then
    .error (.validation "Timestamp" "timestamp cannot be zero" none)
  else
    .ok ()

/-- `DefaultValidator.ValidateComplexSignal`.  The NaN/Inf scans over
values and frequencies cannot fire on exact rationals; negative
frequencies are explicitly allowed here. -/
def ValidateComplexSignal (s : ComplexSignal) : Except Err Unit :=
  if s.values.length = 0 then
    .error (.validation "Values" "complex signal values cannot be empty" none)
  else if s.frequencies.length = 0 then
    .error (.validation "Frequencies" "frequencies cannot be empty" none)
  else if s.values.length ≠ s.frequencies.length then
    .error (.validation "Length" "values and frequencies must have the same length" none)
  else if s.timestamp = 0 then
    .error (.validation "Timestamp" "timestamp cannot be zero" none)
  else
    .ok ()

/-- First index of `l` satisfying `p`, if any (helper for the
ascending-order scans of the validator). -/
def firstIdx (p : α → Bool) : List α → Option ℕ
  | [] => none
  | a :: as => if p a then some 0 else (firstIdx p as).map (· + 1)

/-- `DefaultValidator.ValidatePositiveFrequencySignal`: full-spectrum
validation plus a scan rejecting the first negative frequency. -/
def ValidatePositiveFrequencySignal (s : ComplexSignal) : Except Err Unit :=
  match ValidateComplexSignal s with
  | .error e => .error e
  | .ok _ =>
    match firstIdx (fun f => decide (f < 0)) s.frequencies with
    | some i => .error (.validation "Frequencies" "negative frequency found at index" (some i))
    | none => .ok ()

/-- `DefaultValidator.ValidateImpedanceData`.  The NaN/Inf scan over the
impedance values cannot fire on exact rationals. -/
def ValidateImpedanceData (d : ImpedanceData) : Except Err Unit :=
  if d.impedance.length = 0 then
    .error (.validation "Impedance" "impedance values cannot be empty" none)
  else if d.frequencies.length = 0 then
    .error (.validation "Frequencies" "frequencies cannot be empty" none)
  else if d.impedance.length ≠ d.frequencies.length then
    .error (.validation "Length" "impedance and frequencies must have the same length" none)
  else if 0 < d.magnitude.length ∧ d.magnitude.length ≠ d.impedance.length then
    .error (.validation "Magnitude" "magnitude length must match impedance length" none)
  else if 0 < d.phase.length ∧ d.phase.length ≠ d.impedance.length then
    .error (.validation "Phase" "phase length must match impedance length" none)
  else if d.timestamp = 0 then
    .error (.validation "Timestamp" "timestamp cannot be zero" none)
  else
    .ok ()

/-- `signal.ValidateSignalsMatch`: length, sample-rate and 100 ms
timestamp-drift compatibility of a voltage/current pair.
`timeDiff.Seconds()` is the nanosecond difference divided by 10⁹. -/
def ValidateSignalsMatch (voltageSignal currentSignal : Signal) : Except Err Unit :=
  if voltageSignal.values.length ≠ currentSignal.values.length then
    .error .mismatchedSignalLength
  else if voltageSignal.sampleRate ≠ currentSignal.sampleRate then
    .error .mismatchedSampleRate
  else if |((voltageSignal.timestamp - currentSignal.timestamp : ℤ) : ℚ)| / 1000000000 > 1/10 then
    .error (.validation "Timestamp" "voltage and current signals have significantly different timestamps" none)
  else
    .ok ()

/-- The per-index frequency-bin formula of `generateFrequencies`:
`i·rate/n` for `i < n/2` (integer division), `(i-n)·rate/n` otherwise. -/
def freqAt (n : ℕ) (sampleRate : ℚ) (i : ℕ) : ℚ :=
  if i < n / 2 then (i : ℚ) * sampleRate / (n : ℚ)
  else ((i : ℚ) - (n : ℚ)) * sampleRate / (n : ℚ)

/-- `generateFrequencies` (pkg/fft/processor.go): one bin per output
index, following `freqAt`. -/
def generateFrequencies (n : ℕ) (sampleRate : ℚ) : Except Err (List ℚ) :=
  if n = 0 then .error .invalidSignalLength
  else if sampleRate ≤ 0 then .error .invalidSampleRate
  else .ok ((List.range n).map (freqAt n sampleRate))

/-- The exact rational value of the Go float64 constant `math.Pi`
(IEEE-754 bit pattern 0x400921FB54442D18). -/
def mathPi : ℚ := 884279719003555 / 281474976710656

/-- The exact rational value of `math.MaxFloat64`,
`(2 − 2⁻⁵²)·2¹⁰²³ = (2⁵³ − 1)·2⁹⁷¹`, written as an explicit numeral. -/
def maxFloatQ : ℚ := 179769313486231570814527423731704356798070567525844996598917476803157260780028538760589558632766878171540458953514382464234321326889464182768467546703537516986049910576551282076245490090389328944075868508455133942304583236903222948165808559332123348274797826204144723168738177180919299881250404026184124858368

/-- Model of the defensive `math.IsNaN(angle) || math.IsInf(angle, 0)`
test on a computed twiddle angle: in exact arithmetic the computation
produces a (finite) rational, and the float computation yields NaN/Inf
exactly when it overflows, i.e. when the magnitude exceeds the largest
finite float64 (rounding is irrelevant: reachable exact values stay
more than a factor 10²⁹⁰ below the threshold). -/
def angleIsFinite (q : ℚ) : Bool := |q| ≤ maxFloatQ

/-- Sequenced mapping in the `Except` monad, modelling a Go `for` loop
that builds a result slice and returns early on error. -/
def mapE (f : α → Except Err β) : List α → Except Err (List β)
  | [] => .ok []
  | a :: as =>
    match f a with
    | .error e => .error e
    | .ok b =>
      match mapE f as with
      | .error e => .error e
      | .ok bs => .ok (b :: bs)

/-- Sequenced fold in the `Except` monad, modelling a Go accumulation
loop that returns early on error. -/
def foldE (f : β → α → Except Err β) : β → List α → Except Err β
  | b, [] => .ok b
  | b, a :: as =>
    match f b a with
    | .error e => .error e
    | .ok b2 => foldE f b2 as

/-- Even-indexed elements `x[0], x[2], …` (the `even` slice built by
`computeFFT`). -/
def evens : List α → List α
  | [] => []
  | [a] => [a]
  | a :: _ :: rest => a :: evens rest

/-- Odd-indexed elements `x[1], x[3], …` (the `odd` slice built by
`computeFFT`). -/
def odds : List α → List α
  | [] => []
  | [_] => []
  | _ :: b :: rest => b :: odds rest

/-- Direct discrete Fourier transform (`DefaultProcessor.dft`,
pkg/fft/processor.go): `X[k] = Σⱼ x[j]·exp(−2πi·k·j/n)`, with the
defensive finiteness test on every angle. -/
def dft (cexp : ℚ → CQ) (x : List CQ) : Except Err (List CQ) :=
  let n := x.length
  if n = 0 then .error .invalidSignalLength
  else mapE (fun (k : ℕ) =>
    foldE (fun (sum : CQ) (j : ℕ) =>
      let angle : ℚ := -2 * mathPi * (k : ℚ) * (j : ℚ) / (n : ℚ)
      if angleIsFinite angle then
        .ok (sum + x.getD j 0 * cexp angle)
      else
        .error (.processing "DFT computation" (.invalidAngle k (some j))))
      0 (List.range n))
    (List.range n)

/-- Fuel-indexed body of `DefaultProcessor.computeFFT`: length 0 is an
error, length 1 returns the input, odd length falls back to `dft`, even
length splits into even/odd halves, recurses, and combines with the
radix-2 butterfly.  The fuel only bounds the recursion depth of the
model (the Go recursion terminates because the halves are strictly
shorter); with `x.length ≤ fuel` the fuel is never exhausted. -/
def fftAux (cexp : ℚ → CQ) : ℕ → List CQ → Except Err (List CQ)
  | 0, x =>
    if x.length = 0 then .error .invalidSignalLength
    else if x.length = 1 then .ok x
    else if x.length % 2 = 1 then dft cexp x
    else .error .invalidSignalLength
  | fuel + 1, x =>
    if x.length = 0 then .error .invalidSignalLength
    else if x.length = 1 then .ok x
    else if x.length % 2 = 1 then dft cexp x
    else
      match fftAux cexp fuel (evens x) with
      | .error e => .error e
      | .ok evenFFT =>
        match fftAux cexp fuel (odds x) with
        | .error e => .error e
        | .ok oddFFT =>
          match mapE (fun (k : ℕ) =>
            let angle : ℚ := -2 * mathPi * (k : ℚ) / (x.length : ℚ)
            if angleIsFinite angle then
              let t := cexp angle * oddFFT.getD k 0
              .ok (evenFFT.getD k 0 + t, evenFFT.getD k 0 - t)
            else
              .error (.processing "FFT computation" (.invalidAngle k none)))
            (List.range (x.length / 2)) with
          | .error e => .error e
          | .ok pairs => .ok (pairs.map Prod.fst ++ pairs.map Prod.snd)

/-- `DefaultProcessor.computeFFT`: the recursion measure of the Go
function is the list length, supplied here as fuel. -/
def computeFFT (cexp : ℚ → CQ) (x : List CQ) : Except Err (List CQ) :=
  fftAux cexp x.length x

/-- `DefaultProcessor.ProcessSignal`: validate, lift samples to complex,
transform, generate frequency bins, assemble, validate the result. -/
def ProcessSignal (cexp : ℚ → CQ) (sig : Signal) : Except Err ComplexSignal :=
  match ValidateSignal sig with
  | .error e => .error (.processing "signal validation" e)
  | .ok _ =>
    if sig.values.length = 0 then
      .error (.processing "FFT processing" .invalidSignalLength)
    else
      match computeFFT cexp (sig.values.map (fun v => CQ.mk v 0)) with
      | .error e => .error (.processing "FFT computation" e)
      | .ok fftResult =>
        match generateFrequencies sig.values.length sig.sampleRate with
        | .error e => .error (.processing "frequency generation" e)
        | .ok frequencies =>
          let result : ComplexSignal :=
            ⟨sig.timestamp, fftResult, frequencies⟩
          match ValidateComplexSignal result with
          | .error e => .error (.processing "result validation" e)
          | .ok _ => .ok result

/-- `DefaultProcessor.GetPositiveFrequencies`: validate, keep the first
`max(1, n/2)` entries positionally, validate the truncation under
positive-frequency-only rules. -/
def GetPositiveFrequencies (complexSignal : ComplexSignal) : Except Err ComplexSignal :=
  match ValidateComplexSignal complexSignal with
  | .error e => .error (.processing "input validation" e)
  | .ok _ =>
    let n := complexSignal.values.length
    if n = 0 then .error .invalidSignalLength
    else
      let halfN := if n / 2 = 0 then 1 else n / 2
      let result : ComplexSignal :=
        ⟨complexSignal.timestamp, complexSignal.values.take halfN,
          complexSignal.frequencies.take halfN⟩
      match ValidatePositiveFrequencySignal result with
      | .error e => .error (.processing "result validation" e)
      | .ok _ => .ok result

/-- `DefaultCalculator.ValidateSignals` (impedance package): validate
each signal individually (wrapping a failure's rendered message), then
check pair compatibility. -/
def ValidateSignals (voltageSignal currentSignal : Signal) : Except Err Unit :=
  match ValidateSignal voltageSignal with
  | .error e => .error (.validationWrap "VoltageSignal" e)
  | .ok _ =>
    match ValidateSignal currentSignal with
    | .error e => .error (.validationWrap "CurrentSignal" e)
    | .ok _ => ValidateSignalsMatch voltageSignal currentSignal

/-- `ImpedanceData.CalculateMagnitudePhase`: maps `cmplx.Abs` and
`cmplx.Phase` (abstracted as `fabs`, `fphase`) over the impedance. -/
def CalculateMagnitudePhase (fabs fphase : CQ → ℚ) (z : ImpedanceData) :
    List ℚ × List ℚ :=
  (z.impedance.map fabs, z.impedance.map fphase)

/-- The near-zero-current threshold `1e-10` squared: the Go guard
`cmplx.Abs(I) < 1e-10` is `absSq I < 10⁻²⁰` in exact arithmetic. -/
def epsSq : ℚ := 1 / 100000000000000000000

/-- The per-bin impedance rule of `CalculateImpedance`: `0` under the
near-zero-current guard, `U/I` otherwise. -/
def impedanceBin (u i : CQ) : CQ :=
  if i.absSq < epsSq then 0 else u / i

/-- `DefaultCalculator.CalculateImpedance` (impedance package):
validate the pair, transform both signals, extract both half spectra,
check matching lengths, divide bin-wise under the near-zero-current
guard, derive magnitude/phase, validate the assembled result.  The
defensive NaN/Inf test after the division cannot fire on exact
rationals (the guard ensures a division by a nonzero value). -/
def CalculateImpedance (cexp : ℚ → CQ) (fabs fphase : CQ → ℚ)
    (voltageSignal currentSignal : Signal) : Except Err ImpedanceData :=
  match ValidateSignals voltageSignal currentSignal with
  | .error e => .error (.processing "signal validation" e)
  | .ok _ =>
    match ProcessSignal cexp voltageSignal with
    | .error e => .error (.processing "voltage FFT processing" e)
    | .ok voltageFFT =>
      match ProcessSignal cexp currentSignal with
      | .error e => .error (.processing "current FFT processing" e)
      | .ok currentFFT =>
        match GetPositiveFrequencies voltageFFT with
        | .error e => .error (.processing "voltage positive frequencies" e)
        | .ok voltageHalf =>
          match GetPositiveFrequencies currentFFT with
          | .error e => .error (.processing "current positive frequencies" e)
          | .ok currentHalf =>
            if voltageHalf.values.length ≠ currentHalf.values.length then
              .error (.processing "impedance calculation" .mismatchedSignalLength)
            else
              let impedance := List.zipWith impedanceBin voltageHalf.values currentHalf.values
              let withMP : ImpedanceData :=
                { timestamp := voltageSignal.timestamp
                  impedance := impedance
                  frequencies := voltageHalf.frequencies
                  magnitude := impedance.map fabs
                  phase := impedance.map fphase }
              match ValidateImpedanceData withMP with
              | .error e => .error (.processing "impedance data validation" e)
              | .ok _ => .ok withMP

deriving instance DecidableEq for Except

/-! ### Basic inversion and helper lemmas -/

theorem ValidateSignal_ok_iff (s : Signal) :
    ValidateSignal s = .ok () ↔
      s.values.length ≠ 0 ∧ ¬ s.sampleRate ≤ 0 ∧ s.timestamp ≠ 0 := by
  unfold ValidateSignal
  split_ifs with h1 h2 h3 <;> simp_all

theorem ValidateComplexSignal_ok_iff (s : ComplexSignal) :
    ValidateComplexSignal s = .ok () ↔
      s.values.length ≠ 0 ∧ s.frequencies.length ≠ 0 ∧
      s.values.length = s.frequencies.length ∧ s.timestamp ≠ 0 := by
  unfold ValidateComplexSignal
  split_ifs with h1 h2 h3 h4 <;> simp_all

theorem firstIdx_eq_none_iff (p : α → Bool) (l : List α) :
    firstIdx p l = none ↔ ∀ a ∈ l, p a = false := by
  induction l with
  | nil => simp [firstIdx]
  | cons a as ih =>
    by_cases h : p a <;> simp [firstIdx, h, ih]

theorem firstIdx_eq_some_mem {p : α → Bool} {l : List α} {i : ℕ}
    (h : firstIdx p l = some i) : ∃ a ∈ l, p a = true := by
  induction l generalizing i with
  | nil => simp [firstIdx] at h
  | cons a as ih =>
    by_cases ha : p a
    · exact ⟨a, by simp, ha⟩
    · cases hj : firstIdx p as with
      | none => rw [firstIdx, if_neg ha, hj] at h; simp at h
      | some j =>
        rcases ih hj with ⟨b, hb, hpb⟩
        exact ⟨b, by simp [hb], hpb⟩

theorem ValidatePositiveFrequencySignal_ok_iff (s : ComplexSignal) :
    ValidatePositiveFrequencySignal s = .ok () ↔
      ValidateComplexSignal s = .ok () ∧ ∀ f ∈ s.frequencies, 0 ≤ f := by
  unfold ValidatePositiveFrequencySignal
  cases hv : ValidateComplexSignal s with
  | error e => simp [hv]
  | ok u =>
    cases u
    cases hf : firstIdx (fun f => decide (f < 0)) s.frequencies with
    | some i =>
      rcases firstIdx_eq_some_mem hf with ⟨f, hfmem, hpf⟩
      simp only [hf]
      simp only [decide_eq_true_eq] at hpf
      constructor
      · intro h; exact absurd h (by simp)
      · rintro ⟨-, hall⟩
        exact absurd (hall f hfmem) (by simpa using not_le.mpr hpf)
    | none =>
      have hall := (firstIdx_eq_none_iff _ _).mp hf
      simp only [hf]
      constructor
      · intro _
        refine ⟨trivial, fun f hfmem => ?_⟩
        have := hall f hfmem
        simpa using this
      · intro _
        trivial

theorem ValidateImpedanceData_ok_iff (d : ImpedanceData) :
    ValidateImpedanceData d = .ok () ↔
      d.impedance.length ≠ 0 ∧ d.frequencies.length ≠ 0 ∧
      d.impedance.length = d.frequencies.length ∧
      (0 < d.magnitude.length → d.magnitude.length = d.impedance.length) ∧
      (0 < d.phase.length → d.phase.length = d.impedance.length) ∧
      d.timestamp ≠ 0 := by
  unfold ValidateImpedanceData
  split_ifs with h1 h2 h3 h4 h5 h6 <;> (simp_all; try tauto)

/-- `l.getD i 0 = 0` whenever every element of `l` is `0`. -/
theorem getD_zero_of_all_zero {l : List CQ} (h : ∀ z ∈ l, z = 0) :
    ∀ i, l.getD i 0 = 0 := by
  induction l with
  | nil => intro i; simp
  | cons a as ih =>
    intro i
    cases i with
    | zero => simpa using h a (by simp)
    | succ n => exact ih (fun z hz => h z (by simp [hz])) n

/-- Variant of `getD_zero_of_all_zero` in the `getElem?` normal form
that `simp` produces. -/
theorem getElem?_getD_zero_of_all_zero {l : List CQ} (h : ∀ z ∈ l, z = 0)
    (i : ℕ) : l[i]?.getD 0 = 0 := by
  have := getD_zero_of_all_zero h i
  simpa [List.getD] using this

theorem mem_zipWith {f : α → β → γ} {as : List α} {bs : List β} {c : γ}
    (h : c ∈ List.zipWith f as bs) : ∃ a b, a ∈ as ∧ b ∈ bs ∧ c = f a b := by
  induction as generalizing bs with
  | nil => simp at h
  | cons a as ih =>
    cases bs with
    | nil => simp at h
    | cons b bs =>
      simp only [List.zipWith_cons_cons, List.mem_cons] at h
      rcases h with h | h
      · exact ⟨a, b, by simp, by simp, h⟩
      · rcases ih h with ⟨a', b', ha, hb, hc⟩
        exact ⟨a', b', by simp [ha], by simp [hb], hc⟩

/-! ### Lemmas about the monadic loop helpers -/

theorem mapE_ok_of_forall {f : α → Except Err β} {g : α → β} {l : List α}
    (h : ∀ a ∈ l, f a = .ok (g a)) : mapE f l = .ok (l.map g) := by
  induction l with
  | nil => rfl
  | cons a as ih =>
    have ha := h a (by simp)
    have has : ∀ a ∈ as, f a = .ok (g a) := fun x hx => h x (by simp [hx])
    simp [mapE, ha, ih has]

theorem mapE_ok_mem {f : α → Except Err β} {l : List α} {bs : List β}
    (h : mapE f l = .ok bs) : ∀ b ∈ bs, ∃ a ∈ l, f a = .ok b := by
  induction l generalizing bs with
  | nil =>
    simp only [mapE] at h
    cases h
    simp
  | cons a as ih =>
    simp only [mapE] at h
    cases hfa : f a with
    | error e => rw [hfa] at h; exact absurd h (by simp)
    | ok b0 =>
      rw [hfa] at h
      cases hrest : mapE f as with
      | error e => rw [hrest] at h; exact absurd h (by simp)
      | ok bs0 =>
        rw [hrest] at h
        cases h
        intro b hb
        rcases List.mem_cons.mp hb with rfl | hb
        · exact ⟨a, by simp, hfa⟩
        · rcases ih hrest b hb with ⟨a', ha', hfa'⟩
          exact ⟨a', by simp [ha'], hfa'⟩

theorem mapE_ok_length {f : α → Except Err β} {l : List α} {bs : List β}
    (h : mapE f l = .ok bs) : bs.length = l.length := by
  induction l generalizing bs with
  | nil =>
    simp only [mapE] at h
    cases h
    rfl
  | cons a as ih =>
    simp only [mapE] at h
    cases hfa : f a with
    | error e => rw [hfa] at h; exact absurd h (by simp)
    | ok b0 =>
      rw [hfa] at h
      cases hrest : mapE f as with
      | error e => rw [hrest] at h; exact absurd h (by simp)
      | ok bs0 =>
        rw [hrest] at h
        cases h
        simp [ih hrest]

theorem foldE_ok_of_forall {f : β → α → Except Err β} {g : β → α → β} {l : List α}
    (h : ∀ b a, a ∈ l → f b a = .ok (g b a)) (b : β) :
    foldE f b l = .ok (l.foldl g b) := by
  induction l generalizing b with
  | nil => rfl
  | cons a as ih =>
    have ha := h b a (by simp)
    simp only [foldE, ha, List.foldl]
    exact ih (fun b' x hx => h b' x (by simp [hx])) (g b a)

theorem foldE_ok_const {f : β → α → Except Err β} {l : List α} {b b' : β}
    (h : foldE f b l = .ok b')
    (hstep : ∀ s a, a ∈ l → ∀ s', f s a = .ok s' → s' = s) : b' = b := by
  induction l generalizing b with
  | nil =>
    simp only [foldE] at h
    cases h
    rfl
  | cons a as ih =>
    simp only [foldE] at h
    cases hfa : f b a with
    | error e => rw [hfa] at h; exact absurd h (by simp)
    | ok s1 =>
      rw [hfa] at h
      have hs : s1 = b := hstep b a (by simp) s1 hfa
      subst hs
      exact ih h (fun s x hx s2 h2 => hstep s x (by simp [hx]) s2 h2)

/-- Two-step list induction matching the recursion pattern of `evens`
and `odds`. -/
theorem list_pair_induction (motive : List α → Prop) (h0 : motive [])
    (h1 : ∀ a, motive [a])
    (h2 : ∀ a b rest, motive rest → motive (a :: b :: rest)) :
    ∀ l, motive l
  | [] => h0
  | [a] => h1 a
  | a :: b :: rest => h2 a b rest (list_pair_induction motive h0 h1 h2 rest)

theorem evens_length (l : List α) : (evens l).length = (l.length + 1) / 2 := by
  induction l using list_pair_induction with
  | h0 => simp [evens]
  | h1 a => simp [evens]
  | h2 a b rest ih => simp [evens, ih]; omega

theorem odds_length (l : List α) : (odds l).length = l.length / 2 := by
  induction l using list_pair_induction with
  | h0 => simp [odds]
  | h1 a => simp [odds]
  | h2 a b rest ih => simp [odds, ih]; omega

theorem mem_evens_mem {l : List α} : ∀ z ∈ evens l, z ∈ l := by
  induction l using list_pair_induction with
  | h0 => simp [evens]
  | h1 a => simp [evens]
  | h2 a b rest ih =>
    intro z hz
    rcases List.mem_cons.mp hz with rfl | hz
    · simp
    · have := ih z hz
      simp [this]

theorem mem_odds_mem {l : List α} : ∀ z ∈ odds l, z ∈ l := by
  induction l using list_pair_induction with
  | h0 => simp [odds]
  | h1 a => simp [odds]
  | h2 a b rest ih =>
    intro z hz
    rcases List.mem_cons.mp hz with rfl | hz
    · simp
    · have := ih z hz
      simp [this]

theorem foldl_id {f : β → α → β} {l : List α} (h : ∀ s a, a ∈ l → f s a = s) :
    ∀ s : β, l.foldl f s = s := by
  induction l with
  | nil => intro s; rfl
  | cons a as ih =>
    intro s
    rw [List.foldl_cons, h s a (by simp)]
    exact ih (fun s' x hx => h s' x (by simp [hx])) s

/-! ### Finiteness of the computed twiddle angles -/

theorem mathPi_pos : 0 < mathPi := by norm_num [mathPi]

theorem mathPi_le_four : mathPi ≤ 4 := by norm_num [mathPi]

theorem angleIsFinite_of_abs_le {q : ℚ} (h : |q| ≤ 2 ^ 130) :
    angleIsFinite q = true := by
  have hle : (2 ^ 130 : ℚ) ≤ maxFloatQ := by norm_num [maxFloatQ]
  simp only [angleIsFinite, decide_eq_true_eq]
  linarith

/-- The twiddle angle of the direct DFT double loop is finite for all
index pairs within a Go slice (length at most 2⁶³). -/
theorem dftAngle_finite (k j n : ℕ) (hk : k ≤ n) (hj : j ≤ n) (hn : 0 < n)
    (hb : n ≤ 2 ^ 63) :
    angleIsFinite (-2 * mathPi * (k : ℚ) * (j : ℚ) / (n : ℚ)) = true := by
  apply angleIsFinite_of_abs_le
  have hn0 : (0 : ℚ) < (n : ℚ) := by exact_mod_cast hn
  have hk' : (k : ℚ) ≤ (n : ℚ) := by exact_mod_cast hk
  have hj' : (j : ℚ) ≤ (n : ℚ) := by exact_mod_cast hj
  have hb' : (n : ℚ) ≤ 2 ^ 63 := by exact_mod_cast hb
  have hk0 : (0 : ℚ) ≤ (k : ℚ) := by positivity
  have hj0 : (0 : ℚ) ≤ (j : ℚ) := by positivity
  have hπ := mathPi_pos
  have hπ4 := mathPi_le_four
  have hprod : 0 ≤ 2 * mathPi * (k : ℚ) * (j : ℚ) := by positivity
  have hnum : |(-2 * mathPi * (k : ℚ) * (j : ℚ))| = 2 * mathPi * (k : ℚ) * (j : ℚ) := by
    rw [abs_of_nonpos (by linarith)]
    ring
  rw [abs_div, hnum, abs_of_pos hn0, div_le_iff₀ hn0]
  have hkj : (k : ℚ) * (j : ℚ) ≤ (n : ℚ) * (n : ℚ) :=
    mul_le_mul hk' hj' hj0 (by positivity)
  have h1 : 2 * mathPi * (k : ℚ) * (j : ℚ) ≤ 8 * ((n : ℚ) * (n : ℚ)) := by
    calc 2 * mathPi * (k : ℚ) * (j : ℚ) = (2 * mathPi) * ((k : ℚ) * (j : ℚ)) := by ring
    _ ≤ 8 * ((n : ℚ) * (n : ℚ)) := by
      apply mul_le_mul (by linarith) hkj (by positivity) (by norm_num)
  have h8n : 8 * (n : ℚ) ≤ 2 ^ 130 := by
    have hstep : 8 * (n : ℚ) ≤ 8 * 2 ^ 63 := by linarith
    have h8 : (8 : ℚ) * 2 ^ 63 ≤ 2 ^ 130 := by norm_num
    linarith
  have h2 : 8 * ((n : ℚ) * (n : ℚ)) ≤ 2 ^ 130 * (n : ℚ) := by
    calc 8 * ((n : ℚ) * (n : ℚ)) = (8 * (n : ℚ)) * (n : ℚ) := by ring
    _ ≤ 2 ^ 130 * (n : ℚ) := mul_le_mul_of_nonneg_right h8n (by positivity)
  linarith

/-- The twiddle angle of the radix-2 butterfly is finite for every
in-range index (its magnitude never exceeds 2π). -/
theorem fftAngle_finite (k n : ℕ) (hk : k ≤ n) (hn : 0 < n) :
    angleIsFinite (-2 * mathPi * (k : ℚ) / (n : ℚ)) = true := by
  apply angleIsFinite_of_abs_le
  have hn0 : (0 : ℚ) < (n : ℚ) := by exact_mod_cast hn
  have hk' : (k : ℚ) ≤ (n : ℚ) := by exact_mod_cast hk
  have hk0 : (0 : ℚ) ≤ (k : ℚ) := by positivity
  have hπ := mathPi_pos
  have hπ4 := mathPi_le_four
  have hprod : 0 ≤ 2 * mathPi * (k : ℚ) := by positivity
  have hnum : |(-2 * mathPi * (k : ℚ))| = 2 * mathPi * (k : ℚ) := by
    rw [abs_of_nonpos (by linarith)]
    ring
  rw [abs_div, hnum, abs_of_pos hn0, div_le_iff₀ hn0]
  have h1 : 2 * mathPi * (k : ℚ) ≤ 8 * (n : ℚ) := by
    calc 2 * mathPi * (k : ℚ) = (2 * mathPi) * (k : ℚ) := by ring
    _ ≤ 8 * (n : ℚ) := by
      apply mul_le_mul (by linarith) hk' hk0 (by norm_num)
  have h2 : (8 : ℚ) * (n : ℚ) ≤ 2 ^ 130 * (n : ℚ) := by
    apply mul_le_mul_of_nonneg_right (by norm_num) (by positivity)
  linarith

/-- On any nonempty input within Go slice bounds, the direct DFT
succeeds, preserves length, and maps an all-zero input to an all-zero
output. -/
theorem dft_ok_of_bound (cexp : ℚ → CQ) (x : List CQ)
    (hne : x.length ≠ 0) (hb : x.length ≤ 2 ^ 63) :
    ∃ r, dft cexp x = .ok r ∧ r.length = x.length ∧
      ((∀ z ∈ x, z = 0) → ∀ z ∈ r, z = 0) := by
  have hn : 0 < x.length := Nat.pos_of_ne_zero hne
  refine ⟨(List.range x.length).map (fun (k : ℕ) =>
    (List.range x.length).foldl
      (fun (sum : CQ) (j : ℕ) => sum + x.getD j 0 *
        cexp (-2 * mathPi * (k : ℚ) * (j : ℚ) / (x.length : ℚ))) 0), ?_, ?_, ?_⟩
  · unfold dft
    rw [if_neg hne]
    apply mapE_ok_of_forall
    intro k hk
    apply foldE_ok_of_forall
    intro b j hj
    have hk' : k ≤ x.length := le_of_lt (List.mem_range.mp hk)
    have hj' : j ≤ x.length := le_of_lt (List.mem_range.mp hj)
    simp only [dftAngle_finite k j x.length hk' hj' hn hb, if_true]
  · simp
  · intro hx z hz
    rcases List.mem_map.mp hz with ⟨k, _, hk⟩
    rw [← hk]
    apply foldl_id
    intro s j _
    rw [getD_zero_of_all_zero hx j]
    simp

/-- On any nonempty input within Go slice bounds and with enough fuel
(the Go recursion is on strictly shorter lists, so the list length is
enough fuel), the mixed-radix FFT succeeds, preserves length, and maps
an all-zero input to an all-zero output. -/
theorem fftAux_ok_of_bound (cexp : ℚ → CQ) :
    ∀ (fuel : ℕ) (x : List CQ), x.length ≤ fuel → x.length ≠ 0 →
    x.length ≤ 2 ^ 63 →
    ∃ r, fftAux cexp fuel x = .ok r ∧ r.length = x.length ∧
      ((∀ z ∈ x, z = 0) → ∀ z ∈ r, z = 0) := by
  intro fuel
  induction fuel with
  | zero =>
    intro x hle hne _
    omega
  | succ fuel ih =>
    intro x hle hne hb
    by_cases h1 : x.length = 1
    · refine ⟨x, ?_, rfl, fun hz => hz⟩
      show (if x.length = 0 then _ else if x.length = 1 then _ else _) = _
      rw [if_neg hne, if_pos h1]
    · by_cases hodd : x.length % 2 = 1
      · rcases dft_ok_of_bound cexp x hne hb with ⟨r, hr, hlen, hzero⟩
        refine ⟨r, ?_, hlen, hzero⟩
        show (if x.length = 0 then _ else if x.length = 1 then _
          else if x.length % 2 = 1 then _ else _) = _
        rw [if_neg hne, if_neg h1, if_pos hodd]
        exact hr
      · have hn2 : 2 ≤ x.length := by omega
        have hevlen : (evens x).length = x.length / 2 := by
          rw [evens_length]; omega
        have hodlen : (odds x).length = x.length / 2 := odds_length x
        rcases ih (evens x) (by omega) (by omega) (by omega) with
          ⟨rE, hrE, hlenE, hzE⟩
        rcases ih (odds x) (by omega) (by omega) (by omega) with
          ⟨rO, hrO, hlenO, hzO⟩
        have hmap : mapE (fun (k : ℕ) =>
            let angle : ℚ := -2 * mathPi * (k : ℚ) / (x.length : ℚ)
            if angleIsFinite angle then
              let t := cexp angle * rO.getD k 0
              Except.ok (rE.getD k 0 + t, rE.getD k 0 - t)
            else
              Except.error (.processing "FFT computation" (.invalidAngle k none)))
            (List.range (x.length / 2)) =
            .ok ((List.range (x.length / 2)).map (fun (k : ℕ) =>
              (rE.getD k 0 + cexp (-2 * mathPi * (k : ℚ) / (x.length : ℚ)) * rO.getD k 0,
               rE.getD k 0 - cexp (-2 * mathPi * (k : ℚ) / (x.length : ℚ)) * rO.getD k 0))) := by
          apply mapE_ok_of_forall
          intro k hk
          have hk' : k ≤ x.length := by
            have := List.mem_range.mp hk
            omega
          simp only [fftAngle_finite k x.length hk' (by omega), if_true]
        refine ⟨((List.range (x.length / 2)).map (fun (k : ℕ) =>
            (rE.getD k 0 + cexp (-2 * mathPi * (k : ℚ) / (x.length : ℚ)) * rO.getD k 0,
             rE.getD k 0 - cexp (-2 * mathPi * (k : ℚ) / (x.length : ℚ)) * rO.getD k 0))).map Prod.fst ++
          ((List.range (x.length / 2)).map (fun (k : ℕ) =>
            (rE.getD k 0 + cexp (-2 * mathPi * (k : ℚ) / (x.length : ℚ)) * rO.getD k 0,
             rE.getD k 0 - cexp (-2 * mathPi * (k : ℚ) / (x.length : ℚ)) * rO.getD k 0))).map Prod.snd,
          ?_, ?_, ?_⟩
        · show (if x.length = 0 then _ else if x.length = 1 then _
            else if x.length % 2 = 1 then _ else _) = _
          rw [if_neg hne, if_neg h1, if_neg (by omega : ¬ x.length % 2 = 1)]
          rw [hrE, hrO]
          simp only [hmap]
        · simp
          omega
        · intro hx z hz
          have hzEa : ∀ z ∈ rE, z = 0 :=
            hzE (fun w hw => hx w (mem_evens_mem w hw))
          have hzOa : ∀ z ∈ rO, z = 0 :=
            hzO (fun w hw => hx w (mem_odds_mem w hw))
          rcases List.mem_append.mp hz with hz | hz
          · rcases List.mem_map.mp hz with ⟨p, hp, hpz⟩
            rcases List.mem_map.mp hp with ⟨k, _, hkp⟩
            rw [← hpz, ← hkp]
            simp [getElem?_getD_zero_of_all_zero hzEa,
              getElem?_getD_zero_of_all_zero hzOa]
          · rcases List.mem_map.mp hz with ⟨p, hp, hpz⟩
            rcases List.mem_map.mp hp with ⟨k, _, hkp⟩
            rw [← hpz, ← hkp]
            simp [getElem?_getD_zero_of_all_zero hzEa,
              getElem?_getD_zero_of_all_zero hzOa]

theorem computeFFT_ok_of_bound (cexp : ℚ → CQ) (x : List CQ)
    (hne : x.length ≠ 0) (hb : x.length ≤ 2 ^ 63) :
    ∃ r, computeFFT cexp x = .ok r ∧ r.length = x.length ∧
      ((∀ z ∈ x, z = 0) → ∀ z ∈ r, z = 0) :=
  fftAux_ok_of_bound cexp x.length x le_rfl hne hb

theorem generateFrequencies_ok (n : ℕ) (sampleRate : ℚ)
    (hn : n ≠ 0) (hr : ¬ sampleRate ≤ 0) :
    generateFrequencies n sampleRate = .ok ((List.range n).map (freqAt n sampleRate)) := by
  unfold generateFrequencies
  rw [if_neg hn, if_neg hr]

/-- Full characterisation of a successful `ProcessSignal` run: it
succeeds on every valid signal within Go slice bounds, keeps the
timestamp, preserves the length, produces the canonical frequency
layout, and maps an all-zero signal to an all-zero spectrum. -/
theorem ProcessSignal_ok (cexp : ℚ → CQ) (s : Signal)
    (hv : ValidateSignal s = .ok ()) (hb : s.values.length ≤ 2 ^ 63) :
    ∃ r, ProcessSignal cexp s = .ok r ∧
      r.timestamp = s.timestamp ∧
      r.values.length = s.values.length ∧
      r.frequencies = (List.range s.values.length).map (freqAt s.values.length s.sampleRate) ∧
      ((∀ q ∈ s.values, q = 0) → ∀ z ∈ r.values, z = 0) := by
  rcases (ValidateSignal_ok_iff s).mp hv with ⟨hne, hrate, hts⟩
  have hmaplen : (s.values.map (fun v => CQ.mk v 0)).length = s.values.length := by simp
  rcases computeFFT_ok_of_bound cexp (s.values.map (fun v => CQ.mk v 0))
    (by rw [hmaplen]; exact hne) (by rw [hmaplen]; exact hb) with ⟨fftR, hfft, hfftlen, hfftzero⟩
  have hfftlen' : fftR.length = s.values.length := by rw [hfftlen, hmaplen]
  have hgen := generateFrequencies_ok s.values.length s.sampleRate hne hrate
  have hvr : ValidateComplexSignal
      ⟨s.timestamp, fftR, (List.range s.values.length).map (freqAt s.values.length s.sampleRate)⟩ =
      .ok () := by
    rw [ValidateComplexSignal_ok_iff]
    refine ⟨by simpa [hfftlen'] using hne, by simpa using hne, by simp [hfftlen'], hts⟩
  refine ⟨⟨s.timestamp, fftR, (List.range s.values.length).map (freqAt s.values.length s.sampleRate)⟩,
    ?_, rfl, hfftlen', rfl, ?_⟩
  · unfold ProcessSignal
    rw [hv]
    rw [if_neg hne]
    rw [hfft, hgen]
    simp only [hvr]
  · intro hq z hz
    apply hfftzero ?_ z hz
    intro w hw
    rcases List.mem_map.mp hw with ⟨q, hqmem, hqw⟩
    rw [← hqw, hq q hqmem]
    rfl

theorem halfN_eq_max (n : ℕ) : (if n / 2 = 0 then 1 else n / 2) = max 1 (n / 2) := by
  split_ifs <;> omega

/-- A successful `GetPositiveFrequencies` run: on every valid full
spectrum whose first `max(1, n/2)` frequency bins are nonnegative, the
extraction succeeds and returns the positional truncation. -/
theorem GetPositiveFrequencies_ok (cs : ComplexSignal)
    (hv : ValidateComplexSignal cs = .ok ())
    (hpos : ∀ f ∈ cs.frequencies.take (max 1 (cs.values.length / 2)), 0 ≤ f) :
    GetPositiveFrequencies cs = .ok
      ⟨cs.timestamp, cs.values.take (max 1 (cs.values.length / 2)),
        cs.frequencies.take (max 1 (cs.values.length / 2))⟩ := by
  rcases (ValidateComplexSignal_ok_iff cs).mp hv with ⟨hne, hfne, hlen, hts⟩
  have hvp : ValidatePositiveFrequencySignal
      ⟨cs.timestamp, cs.values.take (max 1 (cs.values.length / 2)),
        cs.frequencies.take (max 1 (cs.values.length / 2))⟩ = .ok () := by
    rw [ValidatePositiveFrequencySignal_ok_iff]
    constructor
    · rw [ValidateComplexSignal_ok_iff]
      refine ⟨?_, ?_, ?_, hts⟩
      · simp only [List.length_take]
        omega
      · simp only [List.length_take]
        omega
      · simp only [List.length_take]
        omega
    · exact hpos
  unfold GetPositiveFrequencies
  rw [hv]
  simp only [if_neg hne, halfN_eq_max, hvp]

/-- Propagation: a pair-validation failure makes `CalculateImpedance`
fail with that error wrapped, for every transform function — in
particular no transform result can influence the outcome. -/
theorem CalculateImpedance_validation_error (cexp : ℚ → CQ)
    (fabs fphase : CQ → ℚ) (v c : Signal) (e : Err)
    (h : ValidateSignals v c = .error e) :
    CalculateImpedance cexp fabs fphase v c =
      .error (.processing "signal validation" e) := by
  unfold CalculateImpedance
  rw [h]

/-- Inversion of a successful `CalculateImpedance` run: the result is
assembled exactly from the two half spectra by the guarded bin-wise
division, with magnitude and phase mapped over the impedance and the
voltage timestamp carried over. -/
theorem CalculateImpedance_ok_inv (cexp : ℚ → CQ) (fabs fphase : CQ → ℚ)
    (v c : Signal) (d : ImpedanceData)
    (h : CalculateImpedance cexp fabs fphase v c = .ok d) :
    ∃ vF cF vH cH,
      ValidateSignals v c = .ok () ∧
      ProcessSignal cexp v = .ok vF ∧
      ProcessSignal cexp c = .ok cF ∧
      GetPositiveFrequencies vF = .ok vH ∧
      GetPositiveFrequencies cF = .ok cH ∧
      vH.values.length = cH.values.length ∧
      d = ⟨v.timestamp, List.zipWith impedanceBin vH.values cH.values,
        vH.frequencies,
        (List.zipWith impedanceBin vH.values cH.values).map fabs,
        (List.zipWith impedanceBin vH.values cH.values).map fphase⟩ := by
  unfold CalculateImpedance at h
  cases h0 : ValidateSignals v c with
  | error e => rw [h0] at h; exact absurd h (by simp)
  | ok u =>
    cases u
    rw [h0] at h
    simp only [] at h
    cases h1 : ProcessSignal cexp v with
    | error e => rw [h1] at h; exact absurd h (by simp)
    | ok vF =>
      rw [h1] at h
      simp only [] at h
      cases h2 : ProcessSignal cexp c with
      | error e => rw [h2] at h; exact absurd h (by simp)
      | ok cF =>
        rw [h2] at h
        simp only [] at h
        cases h3 : GetPositiveFrequencies vF with
        | error e => rw [h3] at h; exact absurd h (by simp)
        | ok vH =>
          rw [h3] at h
          simp only [] at h
          cases h4 : GetPositiveFrequencies cF with
          | error e => rw [h4] at h; exact absurd h (by simp)
          | ok cH =>
            rw [h4] at h
            simp only [] at h
            by_cases h5 : vH.values.length ≠ cH.values.length
            · rw [if_pos h5] at h; exact absurd h (by simp)
            · rw [if_neg h5] at h
              push_neg at h5
              cases h6 : ValidateImpedanceData
                  ⟨v.timestamp, List.zipWith impedanceBin vH.values cH.values,
                    vH.frequencies,
                    (List.zipWith impedanceBin vH.values cH.values).map fabs,
                    (List.zipWith impedanceBin vH.values cH.values).map fphase⟩ with
              | error e => rw [h6] at h; exact absurd h (by simp)
              | ok u =>
                cases u
                rw [h6] at h
                simp only [] at h
                cases h
                exact ⟨vF, cF, vH, cH, rfl, rfl, rfl, h3, h4, h5, rfl⟩

/-- Inversion of a successful `dft` run: the length is preserved and an
all-zero input yields an all-zero output. -/
theorem dft_ok_inv (cexp : ℚ → CQ) (x : List CQ) (r : List CQ)
    (h : dft cexp x = .ok r) :
    r.length = x.length ∧ ((∀ z ∈ x, z = 0) → ∀ z ∈ r, z = 0) := by
  unfold dft at h
  by_cases hx : x.length = 0
  · rw [if_pos hx] at h
    exact absurd h (by simp)
  · rw [if_neg hx] at h
    constructor
    · rw [mapE_ok_length h]
      simp
    · intro hz z hzr
      rcases mapE_ok_mem h z hzr with ⟨k, _, hfk⟩
      have hstep : ∀ (s : CQ) (a : ℕ), a ∈ List.range x.length →
          ∀ s2, (if angleIsFinite (-2 * mathPi * (k : ℚ) * (a : ℚ) / (x.length : ℚ)) then
              Except.ok (s + x.getD a 0 * cexp (-2 * mathPi * (k : ℚ) * (a : ℚ) / (x.length : ℚ)))
            else Except.error (Err.processing "DFT computation" (Err.invalidAngle k (some a)))) = .ok s2 →
          s2 = s := by
        intro s a _ s2 hif
        by_cases hfin : angleIsFinite (-2 * mathPi * (k : ℚ) * (a : ℚ) / (x.length : ℚ)) = true
        · rw [if_pos hfin] at hif
          cases hif
          rw [getD_zero_of_all_zero hz]
          simp
        · rw [if_neg hfin] at hif
          exact absurd hif (by simp)
      exact foldE_ok_const hfk hstep

/-- Inversion of a successful `fftAux` run: the length is preserved and
an all-zero input yields an all-zero output (no fuel bound needed: a
successful run already took a terminating path). -/
theorem fftAux_ok_inv (cexp : ℚ → CQ) :
    ∀ (fuel : ℕ) (x : List CQ) (r : List CQ), fftAux cexp fuel x = .ok r →
      r.length = x.length ∧ ((∀ z ∈ x, z = 0) → ∀ z ∈ r, z = 0) := by
  intro fuel
  induction fuel with
  | zero =>
    intro x r h
    unfold fftAux at h
    by_cases h0 : x.length = 0
    · rw [if_pos h0] at h; exact absurd h (by simp)
    · rw [if_neg h0] at h
      by_cases h1 : x.length = 1
      · rw [if_pos h1] at h
        cases h
        exact ⟨rfl, fun hz => hz⟩
      · rw [if_neg h1] at h
        by_cases hodd : x.length % 2 = 1
        · rw [if_pos hodd] at h
          exact dft_ok_inv cexp x r h
        · rw [if_neg hodd] at h; exact absurd h (by simp)
  | succ fuel ih =>
    intro x r h
    unfold fftAux at h
    by_cases h0 : x.length = 0
    · rw [if_pos h0] at h; exact absurd h (by simp)
    · rw [if_neg h0] at h
      by_cases h1 : x.length = 1
      · rw [if_pos h1] at h
        cases h
        exact ⟨rfl, fun hz => hz⟩
      · rw [if_neg h1] at h
        by_cases hodd : x.length % 2 = 1
        · rw [if_pos hodd] at h
          exact dft_ok_inv cexp x r h
        · rw [if_neg hodd] at h
          cases hE : fftAux cexp fuel (evens x) with
          | error e => rw [hE] at h; exact absurd h (by simp)
          | ok rE =>
            rw [hE] at h
            simp only [] at h
            cases hO : fftAux cexp fuel (odds x) with
            | error e => rw [hO] at h; exact absurd h (by simp)
            | ok rO =>
              rw [hO] at h
              simp only [] at h
              cases hP : mapE (fun (k : ℕ) =>
                  let angle : ℚ := -2 * mathPi * (k : ℚ) / (x.length : ℚ)
                  if angleIsFinite angle then
                    let t := cexp angle * rO.getD k 0
                    Except.ok (rE.getD k 0 + t, rE.getD k 0 - t)
                  else
                    Except.error (.processing "FFT computation" (.invalidAngle k none)))
                  (List.range (x.length / 2)) with
              | error e => rw [hP] at h; exact absurd h (by simp)
              | ok pairs =>
                rw [hP] at h
                simp only [] at h
                cases h
                have hplen : pairs.length = x.length / 2 := by
                  rw [mapE_ok_length hP]
                  simp
                constructor
                · simp only [List.length_append, List.length_map, hplen]
                  omega
                · intro hz z hzr
                  have hzE := (ih (evens x) rE hE).2
                    (fun w hw => hz w (mem_evens_mem w hw))
                  have hzO := (ih (odds x) rO hO).2
                    (fun w hw => hz w (mem_odds_mem w hw))
                  have hpz : ∀ p ∈ pairs, p = ((0 : CQ), (0 : CQ)) := by
                    intro p hp
                    rcases mapE_ok_mem hP p hp with ⟨k, _, hfk⟩
                    by_cases hfin : angleIsFinite (-2 * mathPi * (k : ℚ) / (x.length : ℚ)) = true
                    · simp only [if_pos hfin] at hfk
                      cases hfk
                      rw [getD_zero_of_all_zero hzE, getD_zero_of_all_zero hzO]
                      simp
                    · simp only [if_neg hfin] at hfk
                      exact absurd hfk (by simp)
                  rcases List.mem_append.mp hzr with hzm | hzm
                  · rcases List.mem_map.mp hzm with ⟨p, hp, hpz'⟩
                    rw [← hpz', hpz p hp]
                  · rcases List.mem_map.mp hzm with ⟨p, hp, hpz'⟩
                    rw [← hpz', hpz p hp]

/-- Inversion of a successful `ProcessSignal` run: the input was valid,
the result carries the input timestamp, the canonical frequency layout,
a value sequence of the input's length, and an all-zero input yields an
all-zero spectrum. -/
theorem ProcessSignal_ok_inv (cexp : ℚ → CQ) (s : Signal) (r : ComplexSignal)
    (h : ProcessSignal cexp s = .ok r) :
    ValidateSignal s = .ok () ∧
    r.timestamp = s.timestamp ∧
    r.frequencies = (List.range s.values.length).map (freqAt s.values.length s.sampleRate) ∧
    r.values.length = s.values.length ∧
    ((∀ q ∈ s.values, q = 0) → ∀ z ∈ r.values, z = 0) := by
  unfold ProcessSignal at h
  cases hval : ValidateSignal s with
  | error e => rw [hval] at h; exact absurd h (by simp)
  | ok u =>
    cases u
    rw [hval] at h
    simp only [] at h
    rcases (ValidateSignal_ok_iff s).mp hval with ⟨hne, hrate, _⟩
    rw [if_neg hne] at h
    cases hfft : computeFFT cexp (s.values.map (fun v => CQ.mk v 0)) with
    | error e => rw [hfft] at h; exact absurd h (by simp)
    | ok fftR =>
      rw [hfft] at h
      simp only [] at h
      rw [generateFrequencies_ok s.values.length s.sampleRate hne hrate] at h
      simp only [] at h
      cases hvc : ValidateComplexSignal
          ⟨s.timestamp, fftR, (List.range s.values.length).map (freqAt s.values.length s.sampleRate)⟩ with
      | error e => rw [hvc] at h; exact absurd h (by simp)
      | ok u =>
        cases u
        rw [hvc] at h
        cases h
        have hinv := fftAux_ok_inv cexp (s.values.map (fun v => CQ.mk v 0)).length
          (s.values.map (fun v => CQ.mk v 0)) fftR hfft
        refine ⟨rfl, rfl, rfl, ?_, ?_⟩
        · rw [hinv.1]
          simp
        · intro hq z hz
          apply hinv.2 ?_ z hz
          intro w hw
          rcases List.mem_map.mp hw with ⟨q, hqmem, hqw⟩
          rw [← hqw, hq q hqmem]
          rfl

/-- Inversion of a successful `GetPositiveFrequencies` run: the result
is the positional truncation of the valid input to its first
`max(1, n/2)` entries. -/
theorem GetPositiveFrequencies_ok_inv (cs r : ComplexSignal)
    (h : GetPositiveFrequencies cs = .ok r) :
    ValidateComplexSignal cs = .ok () ∧
    r.timestamp = cs.timestamp ∧
    r.values = cs.values.take (max 1 (cs.values.length / 2)) ∧
    r.frequencies = cs.frequencies.take (max 1 (cs.values.length / 2)) ∧
    (∀ f ∈ r.frequencies, 0 ≤ f) := by
  unfold GetPositiveFrequencies at h
  cases hvc : ValidateComplexSignal cs with
  | error e => rw [hvc] at h; exact absurd h (by simp)
  | ok u =>
    cases u
    rw [hvc] at h
    simp only [] at h
    have hne : cs.values.length ≠ 0 := ((ValidateComplexSignal_ok_iff cs).mp hvc).1
    rw [if_neg hne, halfN_eq_max] at h
    cases hvp : ValidatePositiveFrequencySignal
        ⟨cs.timestamp, cs.values.take (max 1 (cs.values.length / 2)),
          cs.frequencies.take (max 1 (cs.values.length / 2))⟩ with
    | error e => rw [hvp] at h; exact absurd h (by simp)
    | ok u =>
      cases u
      rw [hvp] at h
      cases h
      rcases (ValidatePositiveFrequencySignal_ok_iff _).mp hvp with ⟨_, hpos⟩
      exact ⟨rfl, rfl, rfl, rfl, hpos⟩

/-! ### Float-level model of the signal validator

The numeric pipeline above works in the finite fragment; the validator,
however, branches on IEEE-754 special values (`math.IsNaN`,
`math.IsInf`, and a `<=` comparison whose result is `false` whenever an
operand is NaN).  `FVal` models a Go float64 as either a finite value
(exact), NaN, or a signed infinity, and `fle`/`flt` give the IEEE
comparison semantics. -/

inductive FVal where
  | fin (q : ℚ)
  | nan
  | inf (neg : Bool)
deriving DecidableEq, Repr

/-- IEEE-754 `<=` on float64: any comparison involving NaN is false. -/
def fle : FVal → FVal → Bool
  | .nan, _ => false
  | _, .nan => false
  | .fin a, .fin b => a ≤ b
  | .fin _, .inf neg => !neg
  | .inf neg, .fin _ => neg
  | .inf a, .inf b => a || !b

/-- IEEE-754 `<` on float64: any comparison involving NaN is false. -/
def flt : FVal → FVal → Bool
  | .nan, _ => false
  | _, .nan => false
  | .fin a, .fin b => a < b
  | .fin _, .inf neg => !neg
  | .inf neg, .fin _ => neg
  | .inf a, .inf b => a && !b

/-- `math.IsNaN`. -/
def FVal.isNaN : FVal → Bool
  | .nan => true
  | _ => false

/-- `math.IsInf(v, 0)`. -/
def FVal.isInf : FVal → Bool
  | .inf _ => true
  | _ => false

/-- A float64 sample at the float level (`Signal` with NaN/Inf
representable). -/
structure FSignal where
  timestamp : ℤ
  values : List FVal
  sampleRate : FVal
deriving DecidableEq, Repr

/-- `DefaultValidator.ValidateSignal` at the float level
(pkg/signal/validator.go): empty check, `SampleRate <= 0` under IEEE
comparison, zero-timestamp check, then the ascending index scan whose
first non-finite sample is reported — with the NaN message when that
sample is NaN (checked first in the loop body) and the infinite-value
message otherwise. -/
def FValidateSignal (s : FSignal) : Except Err Unit :=
  if s.values.length = 0 then
    .error (.validation "Values" "signal values cannot be empty" none)
  else if fle s.sampleRate (.fin 0) then
    .error (.validation "SampleRate" "sample rate must be greater than 0" none)
  else if s.timestamp = 0 then
    .error (.validation "Timestamp" "timestamp cannot be zero" none)
  else
    match firstIdx (fun v => v.isNaN || v.isInf) s.values with
    | some i =>
      if (s.values.getD i .nan).isNaN then
        .error (.validation "Values" "NaN value found at index" (some i))
      else
        .error (.validation "Values" "infinite value found at index" (some i))
    | none => .ok ()

/-- `firstIdx` returns `i` whenever position `i` satisfies `p` and all
earlier positions do not. -/
theorem firstIdx_eq_some_of {p : α → Bool} {l : List α} {i : ℕ} {v : α}
    (d : α) (hget : l.get? i = some v) (hp : p v = true)
    (hbefore : ∀ j, j < i → p (l.getD j d) = false) :
    firstIdx p l = some i := by
  induction l generalizing i with
  | nil => simp at hget
  | cons a as ih =>
    cases i with
    | zero =>
      simp only [List.get?] at hget
      cases hget
      simp [firstIdx, hp]
    | succ i =>
      have ha : p a = false := by
        have := hbefore 0 (Nat.succ_pos i)
        simpa using this
      have hrest : firstIdx p as = some i := by
        apply ih (by simpa using hget)
        intro j hj
        have := hbefore (j + 1) (by omega)
        simpa using this
      simp [firstIdx, ha, hrest]

/-- A constant twiddle oracle standing in for the complex exponential in
concrete witness runs (the properties witnessed do not depend on the
exponential's values). -/
def oneTw : ℚ → CQ := fun _ => 1

/-- A constant magnitude/phase oracle for concrete witness runs. -/
def zeroFn : CQ → ℚ := fun _ => 0

/-- Claim C1, counterexample: the length-1 spectrum produced by the
transform on the one-sample signal `[1]` at sample rate 4 is a valid
full spectrum (frequency `-4`, negative bins allowed), yet
`GetPositiveFrequencies` fails on it with a negative-frequency
validation error instead of returning its `max(1, 1/2) = 1` entry. -/
theorem c1_counterexample :
    ProcessSignal oneTw ⟨1, [1], 4⟩ = .ok ⟨1, [⟨1, 0⟩], [-4]⟩ ∧
    ValidateComplexSignal ⟨1, [⟨1, 0⟩], [-4]⟩ = .ok () ∧
    GetPositiveFrequencies ⟨1, [⟨1, 0⟩], [-4]⟩ =
      .error (.processing "result validation"
        (.validation "Frequencies" "negative frequency found at index" (some 0))) :=
  ⟨by decide, by decide, by decide⟩

/-- Claim C1 (amended): for every valid full spectrum whose first
`max(1, n/2)` frequency bins are nonnegative — which holds for every
transform output of length at least 2, but not for length-1 transform
outputs — `GetPositiveFrequencies` succeeds and returns exactly
`max(1, n/2)` entries. -/
theorem c1_half_spectrum_length (cs : ComplexSignal)
    (hv : ValidateComplexSignal cs = .ok ())
    (hpos : ∀ f ∈ cs.frequencies.take (max 1 (cs.values.length / 2)), 0 ≤ f) :
    ∃ r, GetPositiveFrequencies cs = .ok r ∧
      r.values.length = max 1 (cs.values.length / 2) := by
  have hne := ((ValidateComplexSignal_ok_iff cs).mp hv).1
  refine ⟨_, GetPositiveFrequencies_ok cs hv hpos, ?_⟩
  simp only [List.length_take]
  omega

/-- Witness for the amended claim C1 at a concrete 4-entry spectrum. -/
theorem c1_witness :
    ∃ r, GetPositiveFrequencies ⟨1, [⟨1, 0⟩, ⟨2, 1⟩, ⟨3, 2⟩, ⟨4, 3⟩], [0, 100, 200, 300]⟩ = .ok r ∧
      r.values.length =
        max 1 (([⟨1, 0⟩, ⟨2, 1⟩, ⟨3, 2⟩, ⟨4, 3⟩] : List CQ).length / 2) :=
  c1_half_spectrum_length ⟨1, [⟨1, 0⟩, ⟨2, 1⟩, ⟨3, 2⟩, ⟨4, 3⟩], [0, 100, 200, 300]⟩
    (by decide) (by decide)

/-- Claim C2, counterexample: the transform of the impulse `[1,0,0,0]`
at sample rate 4 does return the flat spectrum `1+0i` everywhere, but
its frequency sequence is `[0, 1, -2, -1]` — bin 2 carries `-2`, not
the `2` the claim states (`generateFrequencies` labels every index
`i ≥ n/2` with `(i-n)·rate/n`). -/
theorem c2_counterexample :
    ProcessSignal oneTw ⟨1, [1, 0, 0, 0], 4⟩ =
      .ok ⟨1, [⟨1, 0⟩, ⟨1, 0⟩, ⟨1, 0⟩, ⟨1, 0⟩], [0, 1, -2, -1]⟩ ∧
    ((-2 : ℚ) ≠ 2) :=
  ⟨by decide, by decide⟩

theorem fftAux_one (cexp : ℚ → CQ) (fuel : ℕ) (a : CQ) :
    fftAux cexp fuel [a] = .ok [a] := by
  cases fuel <;> simp [fftAux]

/-- Claim C2 (amended): for every twiddle oracle — hence in particular
for the true complex exponential — the transform of the impulse
`[1,0,0,0]` at sample rate 4 yields the flat spectrum whose every value
is `1+0i`, with frequency sequence `[0, 1, -2, -1]`. -/
theorem c2_impulse_flat_spectrum (cexp : ℚ → CQ) :
    ProcessSignal cexp ⟨1, [1, 0, 0, 0], 4⟩ =
      .ok ⟨1, [⟨1, 0⟩, ⟨1, 0⟩, ⟨1, 0⟩, ⟨1, 0⟩], [0, 1, -2, -1]⟩ := by
  have h1 : fftAux cexp 3 [⟨1, 0⟩, ⟨0, 0⟩] = .ok [⟨1, 0⟩, ⟨1, 0⟩] := by
    simp +decide [fftAux, evens, odds, mapE, fftAux_one, CQ.mul_def, CQ.add_def, CQ.sub_def]
  have h0 : fftAux cexp 3 [⟨0, 0⟩, ⟨0, 0⟩] = .ok [⟨0, 0⟩, ⟨0, 0⟩] := by
    simp +decide [fftAux, evens, odds, mapE, fftAux_one, CQ.mul_def, CQ.add_def, CQ.sub_def]
  have h4 : fftAux cexp 4 [⟨1, 0⟩, ⟨0, 0⟩, ⟨0, 0⟩, ⟨0, 0⟩] =
      .ok [⟨1, 0⟩, ⟨1, 0⟩, ⟨1, 0⟩, ⟨1, 0⟩] := by
    simp +decide [fftAux, evens, odds, mapE, h1, h0, CQ.mul_def, CQ.add_def, CQ.sub_def]
  have hval : ValidateSignal ⟨1, [1, 0, 0, 0], 4⟩ = .ok () := by decide
  have hgen : generateFrequencies 4 4 = .ok [0, 1, -2, -1] := by decide
  have hvc : ValidateComplexSignal
      ⟨1, [⟨1, 0⟩, ⟨1, 0⟩, ⟨1, 0⟩, ⟨1, 0⟩], [0, 1, -2, -1]⟩ = .ok () := by decide
  have hfft : computeFFT cexp ([(1 : ℚ), 0, 0, 0].map fun v => CQ.mk v 0) =
      .ok [⟨1, 0⟩, ⟨1, 0⟩, ⟨1, 0⟩, ⟨1, 0⟩] := by
    show fftAux cexp _ _ = _
    exact h4
  unfold ProcessSignal
  rw [hval]
  simp only []
  rw [if_neg (by decide : ¬ ([1, 0, 0, 0] : List ℚ).length = 0)]
  rw [hfft]
  simp only []
  rw [show ([1, 0, 0, 0] : List ℚ).length = 4 from rfl, hgen]
  simp only [hvc]

/-- Witness for the amended claim C2, instantiating the twiddle oracle. -/
theorem c2_witness :
    ProcessSignal oneTw ⟨1, [1, 0, 0, 0], 4⟩ =
      .ok ⟨1, [⟨1, 0⟩, ⟨1, 0⟩, ⟨1, 0⟩, ⟨1, 0⟩], [0, 1, -2, -1]⟩ :=
  c2_impulse_flat_spectrum oneTw

/-- Claim C3: for every successful transform, the frequency sequence
satisfies the canonical FFT bin layout: `freq[i] = i·rate/n` for
`i < n/2` (integer division) and `freq[i] = (i-n)·rate/n` otherwise. -/
theorem c3_frequency_formula (cexp : ℚ → CQ) (s : Signal) (r : ComplexSignal)
    (h : ProcessSignal cexp s = .ok r) :
    ∀ i, i < s.values.length →
      r.frequencies.get? i = some
        (if i < s.values.length / 2
          then (i : ℚ) * s.sampleRate / (s.values.length : ℚ)
          else ((i : ℚ) - (s.values.length : ℚ)) * s.sampleRate / (s.values.length : ℚ)) := by
  obtain ⟨-, -, hfr, -, -⟩ := ProcessSignal_ok_inv cexp s r h
  intro i hi
  rw [hfr, List.get?_map, List.get?_range hi]
  simp [freqAt]

/-- Witness for claim C3 at the length-2 signal `[1,2]`, sample rate 2,
index 1 (back half, negative bin `-1`). -/
theorem c3_witness :
    (ComplexSignal.mk 1 [⟨3, 0⟩, ⟨-1, 0⟩] [0, -1]).frequencies.get? 1 = some
      (if 1 < ([(1 : ℚ), 2] : List ℚ).length / 2
        then (1 : ℚ) * 2 / (([(1 : ℚ), 2] : List ℚ).length : ℚ)
        else ((1 : ℚ) - (([(1 : ℚ), 2] : List ℚ).length : ℚ)) * 2 /
          (([(1 : ℚ), 2] : List ℚ).length : ℚ)) :=
  c3_frequency_formula oneTw ⟨1, [1, 2], 2⟩ ⟨1, [⟨3, 0⟩, ⟨-1, 0⟩], [0, -1]⟩
    (by decide) 1 (by decide)

theorem impedanceBin_zero_right (u : CQ) : impedanceBin u 0 = 0 := by
  unfold impedanceBin
  rw [CQ.absSq_zero, if_pos]
  norm_num [epsSq]

/-- Claim C4: every successful `CalculateImpedance` result is the
guarded bin-wise division of the two half spectra (`impedanceBin`:
`0+0i` when `|I(f_i)|² < (1e-10)²`, `U(f_i)/I(f_i)` otherwise), and
consequently an all-zero current signal yields impedance bins that are
all exactly `0+0i`. -/
theorem c4_near_zero_current_guard (cexp : ℚ → CQ) (fabs fphase : CQ → ℚ)
    (v c : Signal) (d : ImpedanceData)
    (h : CalculateImpedance cexp fabs fphase v c = .ok d) :
    (∃ vF cF vH cH,
      ProcessSignal cexp v = .ok vF ∧ ProcessSignal cexp c = .ok cF ∧
      GetPositiveFrequencies vF = .ok vH ∧ GetPositiveFrequencies cF = .ok cH ∧
      d.impedance = List.zipWith impedanceBin vH.values cH.values) ∧
    ((∀ q ∈ c.values, q = 0) → ∀ z ∈ d.impedance, z = 0) := by
  rcases CalculateImpedance_ok_inv cexp fabs fphase v c d h with
    ⟨vF, cF, vH, cH, hvs, hV, hC, hHV, hHC, hlen, hd⟩
  have himp : d.impedance = List.zipWith impedanceBin vH.values cH.values := by
    rw [hd]
  refine ⟨⟨vF, cF, vH, cH, hV, hC, hHV, hHC, himp⟩, ?_⟩
  intro hq z hz
  have hcz := (ProcessSignal_ok_inv cexp c cF hC).2.2.2.2 hq
  have hch := (GetPositiveFrequencies_ok_inv cF cH hHC).2.2.1
  have hchz : ∀ w ∈ cH.values, w = 0 := by
    intro w hw
    rw [hch] at hw
    exact hcz w (List.take_subset _ _ hw)
  rw [himp] at hz
  rcases mem_zipWith hz with ⟨u, i, _, hi, hzz⟩
  rw [hzz, hchz i hi]
  exact impedanceBin_zero_right u

/-- Witness for claim C4: voltage `[2,0,0,0]`, all-zero current, sample
rate 4 — the run succeeds and bin 0 of the result is exactly `0+0i`. -/
theorem c4_witness :
    (ImpedanceData.mk 1 [0, 0] [0, 1] [0, 0] [0, 0]).impedance.getD 0 0 = 0 := by
  have h := c4_near_zero_current_guard oneTw zeroFn zeroFn
    ⟨1, [2, 0, 0, 0], 4⟩ ⟨1, [0, 0, 0, 0], 4⟩
    (ImpedanceData.mk 1 [0, 0] [0, 1] [0, 0] [0, 0]) (by decide)
  exact h.2 (by decide) _ (by decide)

/-- Claim C5: on individually valid signals the pair validation fails
with the mismatched-length sentinel when the value sequences differ in
length; with the mismatched-sample-rate sentinel when (at equal
lengths) the rates differ; and with the timestamp-drift validation
error when (at equal lengths and rates) the timestamps differ by more
than 100 ms — and in each case `CalculateImpedance` propagates exactly
that failure, for every twiddle oracle, so no transform is involved in
the outcome. -/
theorem c5_validate_pair (v c : Signal)
    (hv : ValidateSignal v = .ok ()) (hc : ValidateSignal c = .ok ()) :
    (v.values.length ≠ c.values.length →
      ValidateSignals v c = .error .mismatchedSignalLength ∧
      ∀ cexp fabs fphase, CalculateImpedance cexp fabs fphase v c =
        .error (.processing "signal validation" .mismatchedSignalLength)) ∧
    (v.values.length = c.values.length → v.sampleRate ≠ c.sampleRate →
      ValidateSignals v c = .error .mismatchedSampleRate ∧
      ∀ cexp fabs fphase, CalculateImpedance cexp fabs fphase v c =
        .error (.processing "signal validation" .mismatchedSampleRate)) ∧
    (v.values.length = c.values.length → v.sampleRate = c.sampleRate →
      |((v.timestamp - c.timestamp : ℤ) : ℚ)| / 1000000000 > 1 / 10 →
      ValidateSignals v c = .error
        (.validation "Timestamp" "voltage and current signals have significantly different timestamps" none) ∧
      ∀ cexp fabs fphase, CalculateImpedance cexp fabs fphase v c =
        .error (.processing "signal validation"
          (.validation "Timestamp" "voltage and current signals have significantly different timestamps" none))) := by
  have hvs : ValidateSignals v c = ValidateSignalsMatch v c := by
    unfold ValidateSignals
    rw [hv]
    simp only []
    rw [hc]
  refine ⟨?_, ?_, ?_⟩
  · intro hlen
    have hm : ValidateSignalsMatch v c = .error .mismatchedSignalLength := by
      unfold ValidateSignalsMatch
      rw [if_pos hlen]
    have herr : ValidateSignals v c = .error .mismatchedSignalLength := by
      rw [hvs, hm]
    exact ⟨herr, fun cexp fabs fphase =>
      CalculateImpedance_validation_error cexp fabs fphase v c _ herr⟩
  · intro hlen hrate
    have hm : ValidateSignalsMatch v c = .error .mismatchedSampleRate := by
      unfold ValidateSignalsMatch
      rw [if_neg (by simp [hlen]), if_pos hrate]
    have herr : ValidateSignals v c = .error .mismatchedSampleRate := by
      rw [hvs, hm]
    exact ⟨herr, fun cexp fabs fphase =>
      CalculateImpedance_validation_error cexp fabs fphase v c _ herr⟩
  · intro hlen hrate hdrift
    have hm : ValidateSignalsMatch v c = .error
        (.validation "Timestamp" "voltage and current signals have significantly different timestamps" none) := by
      unfold ValidateSignalsMatch
      rw [if_neg (by simp [hlen]), if_neg (by simp [hrate]), if_pos hdrift]
    have herr : ValidateSignals v c = .error
        (.validation "Timestamp" "voltage and current signals have significantly different timestamps" none) := by
      rw [hvs, hm]
    exact ⟨herr, fun cexp fabs fphase =>
      CalculateImpedance_validation_error cexp fabs fphase v c _ herr⟩

/-- Witness for claim C5: a length-4 voltage against a length-3 current
fails with the mismatched-length sentinel, wrapped by
`CalculateImpedance`, independently of the transform. -/
theorem c5_witness :
    CalculateImpedance oneTw zeroFn zeroFn ⟨1, [2, 0, 0, 0], 4⟩ ⟨1, [1, 0, 0], 4⟩ =
      .error (.processing "signal validation" .mismatchedSignalLength) :=
  ((c5_validate_pair ⟨1, [2, 0, 0, 0], 4⟩ ⟨1, [1, 0, 0], 4⟩
    (by decide) (by decide)).1 (by decide)).2 oneTw zeroFn zeroFn

/-- Claim C6, counterexample: a signal with finite samples, nonzero
timestamp, and a NaN sample rate passes `ValidateSignal` — the Go
comparison `NaN <= 0` is false, so the sample-rate check does not fire
— even though its sample rate is not strictly greater than 0 under the
same IEEE ordering.  This falsifies the claimed "succeeds iff sample
rate > 0" biconditional. -/
theorem c6_counterexample :
    FValidateSignal ⟨1, [.fin 1], .nan⟩ = .ok () ∧
    flt (.fin 0) .nan = false :=
  ⟨by decide, by decide⟩

/-- Claim C6 (amended): for every non-empty signal, `ValidateSignal`
succeeds iff the sample rate does not compare `≤ 0` under IEEE ordering
(equivalently: the rate is strictly positive or NaN), the timestamp is
nonzero, and no sample is NaN or infinite; and when the earlier checks
pass, a violation is reported at the first offending index in
ascending order, with the NaN message when that sample is NaN and the
infinite-value message otherwise. -/
theorem c6_validate_real (s : FSignal) (hne : s.values.length ≠ 0) :
    (FValidateSignal s = .ok () ↔
      (fle s.sampleRate (.fin 0) = false ∧ s.timestamp ≠ 0 ∧
        ∀ v ∈ s.values, v.isNaN = false ∧ v.isInf = false)) ∧
    (∀ i v, fle s.sampleRate (.fin 0) = false → s.timestamp ≠ 0 →
      s.values.get? i = some v → (v.isNaN || v.isInf) = true →
      (∀ j, j < i → ((s.values.getD j .nan).isNaN || (s.values.getD j .nan).isInf) = false) →
      FValidateSignal s = .error (.validation "Values"
        (if v.isNaN then "NaN value found at index" else "infinite value found at index")
        (some i))) := by
  constructor
  · unfold FValidateSignal
    rw [if_neg hne]
    by_cases hrate : fle s.sampleRate (.fin 0) = true
    · rw [if_pos hrate]
      simp [hrate]
    · rw [if_neg hrate]
      by_cases hts : s.timestamp = 0
      · rw [if_pos hts]
        simp [hts]
      · rw [if_neg hts]
        cases hf : firstIdx (fun v => v.isNaN || v.isInf) s.values with
        | some i =>
          rcases firstIdx_eq_some_mem hf with ⟨w, hwmem, hpw⟩
          constructor
          · intro hok
            simp only [] at hok
            split_ifs at hok
          · rintro ⟨-, -, hall⟩
            rcases hall w hwmem with ⟨hn, hi⟩
            rw [hn, hi] at hpw
            simp at hpw
        | none =>
          have hall := (firstIdx_eq_none_iff _ _).mp hf
          constructor
          · intro _
            refine ⟨by simpa using hrate, hts, fun v hv => ?_⟩
            have := hall v hv
            simp only [Bool.or_eq_false_iff] at this
            exact this
          · intro _
            rfl
  · intro i v hrate hts hget hor hbefore
    have hf : firstIdx (fun v => v.isNaN || v.isInf) s.values = some i := by
      apply firstIdx_eq_some_of FVal.nan hget hor
      intro j hj
      exact hbefore j hj
    have hgd : s.values.getD i .nan = v := by
      rw [List.getD_eq_getElem?_getD, ← List.get?_eq_getElem?, hget]
      rfl
    unfold FValidateSignal
    rw [if_neg hne, if_neg (by simp [hrate]), if_neg hts, hf]
    simp only []
    rw [hgd]
    by_cases hnan : v.isNaN = true
    · rw [if_pos hnan, if_pos hnan]
    · rw [if_neg hnan, if_neg hnan]

/-- Witness for the amended claim C6: a NaN sample at index 1 behind a
finite sample is reported as a NaN value at index 1. -/
theorem c6_witness :
    FValidateSignal ⟨1, [.fin 1, .nan], .fin 2⟩ =
      .error (.validation "Values" "NaN value found at index" (some 1)) := by
  have h := (c6_validate_real ⟨1, [.fin 1, .nan], .fin 2⟩ (by decide)).2
    1 .nan (by decide) (by decide) (by decide) (by decide) (by decide)
  simpa using h

/-- Claim C7: the stored magnitude and phase sequences of every
successful `CalculateImpedance` result are exactly the images of the
impedance sequence under the magnitude and phase functions, so
recomputing them via `CalculateMagnitudePhase` reproduces the stored
sequences exactly (a fortiori within the 1e-10 tolerance). -/
theorem c7_magnitude_phase_roundtrip (cexp : ℚ → CQ) (fabs fphase : CQ → ℚ)
    (v c : Signal) (d : ImpedanceData)
    (h : CalculateImpedance cexp fabs fphase v c = .ok d) :
    d.magnitude = d.impedance.map fabs ∧
    d.phase = d.impedance.map fphase ∧
    CalculateMagnitudePhase fabs fphase d = (d.magnitude, d.phase) := by
  rcases CalculateImpedance_ok_inv cexp fabs fphase v c d h with
    ⟨vF, cF, vH, cH, -, -, -, -, -, -, hd⟩
  subst hd
  exact ⟨rfl, rfl, rfl⟩

/-- Witness for claim C7 at the DC test pair (voltage `[2,0,0,0]`,
current `[1,0,0,0]`, rate 4). -/
theorem c7_witness :
    (ImpedanceData.mk 1 [⟨2, 0⟩, ⟨2, 0⟩] [0, 1] [0, 0] [0, 0]).magnitude =
      (ImpedanceData.mk 1 [⟨2, 0⟩, ⟨2, 0⟩] [0, 1] [0, 0] [0, 0]).impedance.map zeroFn :=
  (c7_magnitude_phase_roundtrip oneTw zeroFn zeroFn
    ⟨1, [2, 0, 0, 0], 4⟩ ⟨1, [1, 0, 0, 0], 4⟩
    (ImpedanceData.mk 1 [⟨2, 0⟩, ⟨2, 0⟩] [0, 1] [0, 0] [0, 0]) (by decide)).1

/-- Claim C8: on every valid input signal (any length from 1 up to the
Go slice bound, powers of two or not), the transform succeeds and the
output value sequence has exactly the input's length. -/
theorem c8_transform_preserves_length (cexp : ℚ → CQ) (s : Signal)
    (hv : ValidateSignal s = .ok ()) (hb : s.values.length ≤ 2 ^ 63) :
    ∃ r, ProcessSignal cexp s = .ok r ∧ r.values.length = s.values.length := by
  rcases ProcessSignal_ok cexp s hv hb with ⟨r, hr, -, hlen, -, -⟩
  exact ⟨r, hr, hlen⟩

/-- Witness for claim C8 at the non-power-of-two length 3. -/
theorem c8_witness :
    ∃ r, ProcessSignal oneTw ⟨1, [1, 2, 3], 3⟩ = .ok r ∧
      r.values.length = ([(1 : ℚ), 2, 3] : List ℚ).length :=
  c8_transform_preserves_length oneTw ⟨1, [1, 2, 3], 3⟩ (by decide) (by decide)

/-- True when an error is, or wraps, the defensive invalid-angle
computation error of `computeFFT`/`dft`. -/
def Err.isAngleErr : Err → Bool
  | .invalidAngle _ _ => true
  | .processing _ e => e.isAngleErr
  | .validationWrap _ e => e.isAngleErr
  | _ => false

/-- Claim C9: every twiddle angle computed by the FFT butterfly
(`-2π·k/n`, `k < n`) and the direct DFT (`-2π·k·j/n`, `k, j < n`,
`n ≤ 2⁶³`) passes the defensive finiteness test, and consequently
neither `dft` nor `computeFFT` can ever return an invalid-angle
computation error on inputs within Go slice bounds. -/
theorem c9_defensive_angle_check :
    (∀ k j n : ℕ, k < n → j < n → n ≤ 2 ^ 63 →
      angleIsFinite (-2 * mathPi * (k : ℚ) * (j : ℚ) / (n : ℚ)) = true) ∧
    (∀ k n : ℕ, k < n →
      angleIsFinite (-2 * mathPi * (k : ℚ) / (n : ℚ)) = true) ∧
    (∀ (cexp : ℚ → CQ) (x : List CQ) (e : Err), x.length ≤ 2 ^ 63 →
      dft cexp x = .error e → e.isAngleErr = false) ∧
    (∀ (cexp : ℚ → CQ) (x : List CQ) (e : Err), x.length ≤ 2 ^ 63 →
      computeFFT cexp x = .error e → e.isAngleErr = false) := by
  refine ⟨?_, ?_, ?_, ?_⟩
  · intro k j n hk hj hb
    exact dftAngle_finite k j n (le_of_lt hk) (le_of_lt hj) (by omega) hb
  · intro k n hk
    exact fftAngle_finite k n (le_of_lt hk) (by omega)
  · intro cexp x e hb h
    by_cases hx : x.length = 0
    · unfold dft at h
      rw [if_pos hx] at h
      cases h
      rfl
    · rcases dft_ok_of_bound cexp x hx hb with ⟨r, hr, -, -⟩
      rw [hr] at h
      exact absurd h (by simp)
  · intro cexp x e hb h
    by_cases hx : x.length = 0
    · unfold computeFFT at h
      rw [hx] at h
      unfold fftAux at h
      rw [if_pos hx] at h
      cases h
      rfl
    · rcases computeFFT_ok_of_bound cexp x hx hb with ⟨r, hr, -, -⟩
      rw [hr] at h
      exact absurd h (by simp)

/-- Witness for claim C9 at concrete indices `k=1, j=2, n=3`. -/
theorem c9_witness :
    angleIsFinite (-2 * mathPi * ((1 : ℕ) : ℚ) * ((2 : ℕ) : ℚ) / ((3 : ℕ) : ℚ)) = true ∧
    angleIsFinite (-2 * mathPi * ((1 : ℕ) : ℚ) / ((3 : ℕ) : ℚ)) = true :=
  ⟨c9_defensive_angle_check.1 1 2 3 (by decide) (by decide) (by decide),
   c9_defensive_angle_check.2.1 1 3 (by decide)⟩

/-- Claim C10: the timestamp of every successful `CalculateImpedance`
result is the voltage signal's timestamp — never the current signal's,
even when the two differ within the permitted 100 ms drift. -/
theorem c10_result_timestamp_is_voltage (cexp : ℚ → CQ) (fabs fphase : CQ → ℚ)
    (v c : Signal) (d : ImpedanceData)
    (h : CalculateImpedance cexp fabs fphase v c = .ok d) :
    d.timestamp = v.timestamp := by
  rcases CalculateImpedance_ok_inv cexp fabs fphase v c d h with
    ⟨vF, cF, vH, cH, -, -, -, -, -, -, hd⟩
  rw [hd]

/-- Witness for claim C10: with the current signal's timestamp 50 ms
after the voltage's (within drift), the result carries the voltage
timestamp. -/
theorem c10_witness :
    (ImpedanceData.mk 1000000000 [⟨2, 0⟩, ⟨2, 0⟩] [0, 1] [0, 0] [0, 0]).timestamp =
      (Signal.mk 1000000000 [2, 0, 0, 0] 4).timestamp :=
  c10_result_timestamp_is_voltage oneTw zeroFn zeroFn
    ⟨1000000000, [2, 0, 0, 0], 4⟩ ⟨1050000000, [1, 0, 0, 0], 4⟩
    (ImpedanceData.mk 1000000000 [⟨2, 0⟩, ⟨2, 0⟩] [0, 1] [0, 0] [0, 0]) (by decide)
